import Mathlib

/-!
# A shallow embedding of the wiki content store

This file embeds the revision-controlled content store of the wiki (the
`GitBackend`) and the HTTP middleware that accompanies it.  Pure fragments of
the source are translated directly; components whose bodies are not part of
the visible source (the path resolver, the revision accessor, the commit
writer and the history walker) are modelled from the design document and are
marked as such in their doc comments.  Byte strings are lists of naturals,
the filesystem is an association list from paths to bytes, and the revision
chain is a list of immutable revision records with the tip first.
-/

namespace Wiki

/-- Byte strings are modelled as lists of naturals. -/
abbrev Bytes := List Nat

/-- The error taxonomy of the Store (spec section 7). -/
inductive StoreError
  | notFound
  | invalidRevision
  | pathError
  | decryptionFailed
deriving DecidableEq

/-- A revision record: identifier, author, commit message, the set of
physical paths changed by the commit, and the tree snapshot it recorded
(spec section 3). -/
structure Revision where
  id : Nat
  author : String
  message : String
  paths : List String
  tree : List (String × Bytes)
deriving DecidableEq

/-- The revision-controlled backend: the repository directory, the on-disk
files (working copy plus untracked metadata files, keyed by full path), and
the revision chain with the tip first. -/
structure GitBackend where
  dir : String
  fs : List (String × Bytes)
  chain : List Revision
deriving DecidableEq

/-- The page projection returned by reads (spec section 3). -/
structure Page where
  title : String
  content : Bytes
deriving DecidableEq

/-- Association-list lookup of an on-disk file by its path. -/
def lookupFile : List (String × Bytes) → String → Option Bytes
  | [], _ => none
  | e :: rest, p => if e.1 = p then some e.2 else lookupFile rest p

/-- A plain filesystem read (`os.ReadFile`): the bytes exactly as stored, or
a not-found error when the file does not exist. -/
def readFile (files : List (String × Bytes)) (path : String) : Except StoreError Bytes :=
  match lookupFile files path with
  | some b => Except.ok b
  | none => Except.error StoreError.notFound

/-- `filepath.Join(g.dir, ".wiki", fmt.Sprintf("%s.json.enc", name))` from
`GetConfig` (src/unnamed/part_000:30). -/
def configPath (dir name : String) : String := dir ++ "/.wiki/" ++ name ++ ".json.enc"

/-- `GetConfig` (src/unnamed/part_000:29-32): a plain `os.ReadFile` of the
config file under the reserved `.wiki` directory.  The bytes are returned as
stored; there is no decryption step and no revision-chain access. -/
def GetConfig (g : GitBackend) (name : String) : Except StoreError Bytes :=
  readFile g.fs (configPath g.dir name)

/-- Splits a character list at a separator character; `acc` holds the
characters of the current segment in reverse. -/
def splitCh (sep : Char) : List Char → List Char → List (List Char)
  | acc, [] => [acc.reverse]
  | acc, c :: cs => if c = sep then acc.reverse :: splitCh sep [] cs else splitCh sep (c :: acc) cs

/-- The `/`-separated segments of a logical name. -/
def splitSegs (s : String) : List String := (splitCh '/' [] s.data).map List.asString

/-- Modelled from the spec: the sanitization predicate of the Path Resolver
(section 4.1); `resolvePath` is called at src/unnamed/part_000:20 but its body
is not under src.  A segment is rejected when it is empty (which covers empty
names, absolute-path prefixes and doubled separators), when it is a
parent-directory or here-directory segment, or when it equals the reserved
metadata directory name, so that an accepted name can never resolve to the
root itself or escape it. -/
def goodSeg (s : String) : Bool :=
  if s = "" then false
  else if s = "." then false
  else if s = ".." then false
  else if s = ".wiki" then false
  else true

/-- All segments of the list pass sanitization. -/
def allGood : List String → Bool
  | [] => true
  | s :: rest => goodSeg s && allGood rest

/-- Joins path segments with `/`. -/
def joinSegs : List String → String
  | [] => ""
  | [s] => s
  | s :: rest => s ++ "/" ++ joinSegs rest

/-- Modelled from the spec: the Path Resolver (section 4.1); only the call
site of `resolvePath` (src/unnamed/part_000:20) is under src.  The logical
name is split into segments, each segment is sanitized, and the physical path
is the sanitized name joined under the root. -/
def resolvePath (root name : String) : Except StoreError String :=
  match splitSegs name with
  | [] => Except.error StoreError.pathError
  | s :: rest =>
    if allGood (s :: rest) then Except.ok (root ++ "/" ++ joinSegs (s :: rest))
    else Except.error StoreError.pathError

/-- A physical path lies strictly inside the root directory tree: it extends
the root by at least one sanitized path segment, and contains no
parent-directory segment that could lead back out. -/
def insideRoot (root p : String) : Prop :=
  ∃ segs : List String, segs ≠ [] ∧ allGood segs = true ∧ p = root ++ "/" ++ joinSegs segs

/-- Finds the revision with the given identifier in the chain. -/
def findRevision : List Revision → Nat → Option Revision
  | [], _ => none
  | r :: rest, rid => if r.id = rid then some r else findRevision rest rid

/-- Modelled from the spec: the Revision Accessor (section 4.2);
`pathAtRevision` is called at src/unnamed/part_000:21 but its body is not
under src.  The symbolic tip marker "HEAD" reads from the working copy; a
concrete revision identifier (a decimal numeral here) is resolved in the
chain and the blob is looked up in that revision's recorded tree, without
touching the working copy. -/
def pathAtRevision (g : GitBackend) (path : String) (rev : String) : Except StoreError Bytes :=
  if rev = "HEAD" then readFile g.fs path
  else
    match rev.toNat? with
    | none => Except.error StoreError.invalidRevision
    | some rid =>
      match findRevision g.chain rid with
      | none => Except.error StoreError.invalidRevision
      | some r =>
        match lookupFile r.tree path with
        | some b => Except.ok b
        | none => Except.error StoreError.notFound

/-- Modelled from the spec: `GetPageAt` reads a page at a given revision via
the Path Resolver and the Revision Accessor; only its call from `GetPage`
(src/unnamed/part_000:13) is under src. -/
def GetPageAt (g : GitBackend) (title : String) (rev : String) : Except StoreError Page :=
  match resolvePath g.dir title with
  | Except.error e => Except.error e
  | Except.ok p =>
    match pathAtRevision g p rev with
    | Except.error e => Except.error e
    | Except.ok b => Except.ok { title := title, content := b }

/-- `GetPage` (src/unnamed/part_000:12-14): delegates to `GetPageAt` at the
symbolic tip marker "HEAD". -/
def GetPage (g : GitBackend) (title : String) : Except StoreError Page :=
  GetPageAt g title "HEAD"

/-- `GetFile` (src/unnamed/part_000:16-27).  Faithful to the fragment: the
error returned by `resolvePath` is immediately overwritten by the next `:=`
assignment without being checked, so when resolution fails the accessor is
consulted with the zero-value path `""` and the path error is lost. -/
def GetFile (g : GitBackend) (name : String) : Except StoreError Bytes :=
  let gitPath :=
    match resolvePath g.dir name with
    | Except.ok q => q
    | Except.error _ => ""
  pathAtRevision g gitPath "HEAD"

/-- The events observable during a Store operation: transitions of the
mutation read-write lock, plain filesystem reads, and repository reads. -/
inductive Ev
  | rlock
  | runlock
  | wlock
  | wunlock
  | fsRead (path : String)
  | repoRead (path : String)
deriving DecidableEq

/-- Whether an event accesses the working copy or repository state. -/
def isAccess : Ev → Bool
  | Ev.fsRead _ => true
  | Ev.repoRead _ => true
  | _ => false

/-- Checks that every access event of the trace happens while at least one
shared hold of the lock is outstanding; `d` counts the shared holds. -/
def accessesShared : List Ev → Nat → Bool
  | [], _ => true
  | Ev.rlock :: rest, d => accessesShared rest (d + 1)
  | Ev.runlock :: rest, d => accessesShared rest (d - 1)
  | e :: rest, d => (!isAccess e || decide (0 < d)) && accessesShared rest d

/-- The trace performs every access under the shared lock. -/
def sharedHeldThroughout (t : List Ev) : Bool := accessesShared t 0

/-- The event trace of `GetFile` (src/unnamed/part_000:16-27): `RLock`, the
repository access made by `pathAtRevision`, and the deferred `RUnlock`. -/
def getFileTrace (g : GitBackend) (name : String) : List Ev :=
  let gitPath :=
    match resolvePath g.dir name with
    | Except.ok q => q
    | Except.error _ => ""
  [Ev.rlock, Ev.repoRead gitPath, Ev.runlock]

/-- The event trace of `GetConfig` (src/unnamed/part_000:29-32): a single
plain file read, with no lock transition of any kind. -/
def getConfigTrace (g : GitBackend) (name : String) : List Ev :=
  [Ev.fsRead (configPath g.dir name)]

/-- Membership test on a list of strings. -/
def memStr : List String → String → Bool
  | [], _ => false
  | q :: rest, p => if q = p then true else memStr rest p

/-- Failures of the Commit Writer (spec section 7). -/
inductive CommitError
  | stageFailed (path : String)
  | commitFailed
deriving DecidableEq

/-- Modelled from the spec: the staging step of the Commit Writer (section
4.4); the commit code itself is not under src.  Paths are staged one at a
time and `failing` is the set of paths whose staging fails, e.g. from a disk
I/O error. -/
def stageAll (failing : List String) : List String → List String → Except CommitError (List String)
  | staged, [] => Except.ok staged
  | staged, p :: rest =>
    if memStr failing p then Except.error (CommitError.stageFailed p)
    else stageAll failing (staged ++ [p]) rest

/-- Modelled from the spec: the Commit Writer (section 4.4); its code is not
under src.  The given paths are staged, then a single new revision whose
parent is the current tip is appended; `commitOk` models whether the final
commit step itself succeeds.  The returned backend is the state after the
operation. -/
def commit (g : GitBackend) (failing : List String) (commitOk : Bool)
    (paths : List String) (author msg : String) (newId : Nat) :
    GitBackend × Except CommitError Revision :=
  match stageAll failing [] paths with
  | Except.error e => (g, Except.error e)
  | Except.ok staged =>
    if commitOk then
      let rev : Revision :=
        { id := newId, author := author, message := msg, paths := staged, tree := g.fs }
      ({ g with chain := rev :: g.chain }, Except.ok rev)
    else (g, Except.error CommitError.commitFailed)

/-- The log-entry projection of one revision (spec section 3). -/
structure LogEntry where
  rev : Nat
  author : String
  message : String
deriving DecidableEq

/-- Projects a revision to its log entry. -/
def toLogEntry (r : Revision) : LogEntry :=
  { rev := r.id, author := r.author, message := r.message }

/-- Whether a revision's changed-path set contains the given physical path. -/
def touches (r : Revision) (p : String) : Bool := memStr r.paths p

/-- Modelled from the spec: the single-page walk of the History Walker
(section 4.5); its code is not under src.  The chain is walked tip-first;
revisions touching the path are collected; the walk stops after collecting
`k` entries, returning a cursor that encodes the last-visited revision, or
with an empty cursor when the chain is exhausted. -/
def walkHistory (p : String) : List Revision → Nat → List Revision × Option Nat
  | [], _ => ([], none)
  | r :: rest, k =>
    if touches r p then
      if k ≤ 1 then ([r], some r.id)
      else (r :: (walkHistory p rest (k - 1)).1, (walkHistory p rest (k - 1)).2)
    else walkHistory p rest k

/-- Resumes immediately after the revision a cursor denotes: drops the chain
up to and including the first revision carrying the cursor's identifier. -/
def skipPast : List Revision → Nat → List Revision
  | [], _ => []
  | r :: rest, c => if r.id = c then rest else skipPast rest c

/-- Modelled from the spec: one page of `History` (section 4.5).  An empty
cursor starts at the tip; otherwise the walk resumes immediately after the
cursor's revision.  Entries are the log-entry projections of the collected
revisions. -/
def history (g : GitBackend) (p : String) (cursor : Option Nat) (k : Nat) :
    List LogEntry × Option Nat :=
  let res :=
    match cursor with
    | none => walkHistory p g.chain k
    | some c => walkHistory p (skipPast g.chain c) k
  (res.1.map toLogEntry, res.2)

/-- The pages obtained by starting `History` with the empty cursor and
repeatedly following `nextCursor` until it is empty; `fuel` bounds the
recursion and is chosen larger than the chain below. -/
def pageSeqAux (g : GitBackend) (p : String) (k : Nat) :
    Nat → Option Nat → List (List LogEntry × Option Nat)
  | 0, _ => []
  | fuel + 1, cursor =>
    let pr := history g p cursor k
    match pr.2 with
    | none => [pr]
    | some c => pr :: pageSeqAux g p k fuel (some c)

/-- The full page sequence of the paginated history walk. -/
def pageSeq (g : GitBackend) (p : String) (k : Nat) : List (List LogEntry × Option Nat) :=
  pageSeqAux g p k (g.chain.length + 1) none

/-- Concatenates the entry lists of a page sequence. -/
def concatAll : List (List LogEntry × Option Nat) → List LogEntry
  | [] => []
  | pr :: rest => pr.1 ++ concatAll rest

/-- The cursor of the final page of a page sequence (a dummy non-empty
cursor for the empty sequence). -/
def lastCursor : List (List LogEntry × Option Nat) → Option Nat
  | [] => some 0
  | [pr] => pr.2
  | _ :: q :: rest => lastCursor (q :: rest)

/-- A gorilla session as far as `putSessionKey` observes it. -/
structure GoSession where
  values : List (String × String)
  isNew : Bool
  httpOnly : Bool
  sameSiteStrict : Bool
  maxAge : Nat
deriving DecidableEq

/-- Removes a key from the session's value map. -/
def removeKey : List (String × String) → String → List (String × String)
  | [], _ => []
  | e :: rest, k => if e.1 = k then removeKey rest k else e :: removeKey rest k

/-- Map assignment `s.Values[key] = value`. -/
def setVal (vs : List (String × String)) (k v : String) : List (String × String) :=
  (k, v) :: removeKey vs k

/-- `putSessionKey` (src/unnamed/part_000:88-102): stores the value, sets the
cookie options on a fresh session, and saves.  The function has no error
result; a failed save is only written to the log and the function returns
normally.  `saveResult` models the outcome of `s.Save`; the second component
of the result is the emitted log. -/
def putSessionKey (sess : Option GoSession) (key value : String)
    (saveResult : Except String Unit) : Option GoSession × List String :=
  match sess with
  | none => (none, [])
  | some s =>
    let s1 := { s with values := setVal s.values key value }
    let s2 :=
      if s1.isNew then
        { s1 with httpOnly := true, sameSiteStrict := true, maxAge := 60 * 60 * 24 * 31 }
      else s1
    match saveResult with
    | Except.ok _ => (some s2, [])
    | Except.error e => (some s2, ["Unable to save session: " ++ e])

/-- The route table of `CheckAuthentication` (src/unnamed/part_000:145-155):
each known route prefix is mapped to whether it requires authentication. -/
def authRequirements (authForReads authForWrites : Bool) : List (String × Bool) :=
  [("/edit/", authForWrites),
   ("/file/", authForReads),
   ("/history/", authForReads),
   ("/view/", authForReads),
   ("/wiki/index", authForReads),
   ("/wiki/files", authForReads),
   ("/wiki/login", false),
   ("/wiki/logout", false),
   ("/wiki/upload", authForWrites)]

/-- `strings.HasPrefix`. -/
def hasPrefixStr (s pre : String) : Bool := pre.data.isPrefixOf s.data

/-- The `findPrefix` closure (src/unnamed/part_000:157-164): the first entry
in iteration order whose key is a prefix of the target decides the
requirement; when no entry matches the route is unknown. -/
def findRoute : List (String × Bool) → String → Option Bool
  | [], _ => none
  | e :: rest, target => if hasPrefixStr target e.1 then some e.2 else findRoute rest target

/-- The observable outcome of the middleware on one request. -/
inductive AuthOutcome
  | notFound
  | unauthorized
  | forward
deriving DecidableEq

/-- The per-request behaviour of `CheckAuthentication`
(src/unnamed/part_000:166-183), parameterized by the iteration order `order`
of the requirements map: an unknown route answers 404 without calling the
next handler, a known route that requires authentication answers 401 when
the request carries no user, and otherwise the request is forwarded. -/
def checkAuthentication (order : List (String × Bool)) (target : String) (hasUser : Bool) :
    AuthOutcome :=
  match findRoute order target with
  | none => AuthOutcome.notFound
  | some needAuth =>
    if needAuth && !hasUser then AuthOutcome.unauthorized else AuthOutcome.forward

/-- The observable outcome of the canonicalization middleware. -/
inductive WebResult
  | redirect (status : Nat) (location : String)
  | forward (uri : String)
deriving DecidableEq

/-- `strings.ToLower`: Go maps every rune of the string through the
Unicode-aware rune table `unicode.ToLower`.  The embedding takes that
rune-lowering table as the parameter `low` instead of transcribing Unicode's
case tables, so that no part of the table is dropped or approximated: every
statement proved about `goToLower low` holds for the real table in
particular, non-ASCII runes included. -/
def goToLower (low : Char → Char) (s : String) : String := (s.data.map low).asString

/-- `LowerCaseCanonical` (src/unnamed/part_000:232-240), relative to the
rune-lowering table `low` of `unicode.ToLower`: a request whose URI is
changed by lowercasing is answered with a permanent redirect (HTTP 308) to
the lowercased URI; otherwise the request is forwarded unchanged. -/
def lowerCaseCanonical (low : Char → Char) (uri : String) : WebResult :=
  if goToLower low uri ≠ uri then WebResult.redirect 308 (goToLower low uri)
  else WebResult.forward uri

/-- A concrete fragment of the `unicode.ToLower` rune table, agreeing with
it on every character the witness exercises: ASCII capitals A-Z lower by
adding 32, and the Latin-1 capital `É` (U+00C9) lowers to `é` (U+00E9),
also a delta of 32 in `unicode.ToLower`. -/
def lowerCharEx (c : Char) : Char :=
  if 65 ≤ c.toNat ∧ c.toNat ≤ 90 then Char.ofNat (c.toNat + 32)
  else if c = 'É' then 'é'
  else c

/-- A backend whose stored config blob for "users" is the ciphertext
`[1, 2, 3]`. -/
def gEx1 : GitBackend :=
  { dir := "/repo", fs := [("/repo/.wiki/users.json.enc", [1, 2, 3])], chain := [] }

/-- A backend used to exhibit the lock behaviour of `GetConfig`. -/
def gEx2 : GitBackend := { dir := "/repo", fs := [], chain := [] }

/-- A backend with one file, used to exercise a failing commit. -/
def gEx3 : GitBackend := { dir := "/r", fs := [("f", [7])], chain := [] }

/-- Three concrete revisions: the page "home" was touched by revisions 3 and
1 but not by revision 2. -/
def revA : Revision := { id := 3, author := "alice", message := "m3", paths := ["home"], tree := [] }

/-- Second concrete revision. -/
def revB : Revision := { id := 2, author := "bob", message := "m2", paths := ["other"], tree := [] }

/-- Third concrete revision. -/
def revC : Revision := { id := 1, author := "carol", message := "m1", paths := ["home"], tree := [] }

/-- A backend with a three-revision chain, used to exercise pagination. -/
def gEx4 : GitBackend := { dir := "/repo", fs := [], chain := [revA, revB, revC] }

/-- A backend used to exhibit the dropped resolution error of `GetFile`. -/
def gEx7 : GitBackend := { dir := "/repo", fs := [], chain := [] }

/-! ## Helper lemmas -/

theorem stageAll_ok_eq (failing : List String) :
    ∀ (paths acc staged : List String),
      stageAll failing acc paths = Except.ok staged → staged = acc ++ paths := by
  intro paths
  induction paths with
  | nil =>
    intro acc staged h
    simp only [stageAll] at h
    cases h
    simp
  | cons p rest ih =>
    intro acc staged h
    simp only [stageAll] at h
    by_cases hf : memStr failing p = true
    · simp [hf] at h
    · simp only [hf] at h
      rw [if_neg (by simp [hf])] at h
      have := ih (acc ++ [p]) staged h
      simp [this]

theorem allGood_eq_false_of_mem :
    ∀ (l : List String) (s : String), s ∈ l → goodSeg s = false → allGood l = false := by
  intro l
  induction l with
  | nil => intro s hs; cases hs
  | cons q rest ih =>
    intro s hs hbad
    rcases List.mem_cons.mp hs with h | h
    · subst h; simp [allGood, hbad]
    · simp [allGood, ih s h hbad]

theorem filter_cons_touches_pos (p : String) (r : Revision) (l : List Revision)
    (ht : touches r p = true) :
    (r :: l).filter (fun x => touches x p) = r :: l.filter (fun x => touches x p) := by
  simp [List.filter_cons, ht]

theorem filter_cons_touches_neg (p : String) (r : Revision) (l : List Revision)
    (ht : ¬touches r p = true) :
    (r :: l).filter (fun x => touches x p) = l.filter (fun x => touches x p) := by
  simp [List.filter_cons, ht]

theorem skipPast_suffix : ∀ (l : List Revision) (c : Nat), skipPast l c <:+ l := by
  intro l c
  induction l with
  | nil => simp only [skipPast]; exact List.suffix_refl _
  | cons r rest ih =>
    by_cases hr : r.id = c
    · simp only [skipPast, if_pos hr]; exact List.suffix_cons r rest
    · simp only [skipPast, if_neg hr]; exact ih.trans (List.suffix_cons r rest)

theorem skipPast_append (c : Nat) :
    ∀ (t s : List Revision), (∀ r ∈ t, r.id ≠ c) → skipPast (t ++ s) c = skipPast s c := by
  intro t
  induction t with
  | nil => intro s _; simp
  | cons r t2 ih =>
    intro s hne
    have hr : r.id ≠ c := hne r (List.mem_cons_self r t2)
    simp only [List.cons_append, skipPast, if_neg hr]
    exact ih s fun x hx => hne x (List.mem_cons_of_mem r hx)

theorem skipPast_eq_of_suffix (chain s : List Revision) (c : Nat)
    (hn : (chain.map Revision.id).Nodup) (hs : s <:+ chain)
    (hc : c ∈ s.map Revision.id) :
    skipPast chain c = skipPast s c := by
  obtain ⟨t, rfl⟩ := hs
  apply skipPast_append
  intro r hr hEq
  rw [List.map_append] at hn
  rcases List.nodup_append.mp hn with ⟨_, _, hdisj⟩
  exact hdisj (List.mem_map_of_mem Revision.id hr) (hEq ▸ hc)

theorem walkHistory_none (p : String) :
    ∀ (chain : List Revision) (k : Nat), 1 ≤ k →
      (walkHistory p chain k).2 = none →
      (walkHistory p chain k).1 = chain.filter (fun r => touches r p) := by
  intro chain
  induction chain with
  | nil => intro k _ _; simp [walkHistory]
  | cons r rest ih =>
    intro k hk h
    by_cases ht : touches r p
    · by_cases hk1 : k ≤ 1
      · simp [walkHistory, ht, hk1] at h
      · simp only [walkHistory, if_pos ht, if_neg hk1] at h ⊢
        rw [filter_cons_touches_pos p r rest ht]
        rw [ih (k - 1) (by omega) h]
    · simp only [walkHistory, if_neg ht] at h ⊢
      rw [filter_cons_touches_neg p r rest ht]
      exact ih k hk h

theorem walkHistory_some (p : String) :
    ∀ (chain : List Revision), (chain.map Revision.id).Nodup →
      ∀ (k c : Nat), 1 ≤ k → (walkHistory p chain k).2 = some c →
      (walkHistory p chain k).1 = (chain.filter (fun r => touches r p)).take k ∧
      c ∈ chain.map Revision.id ∧
      (skipPast chain c).length < chain.length ∧
      ((skipPast chain c).map Revision.id).Nodup ∧
      skipPast chain c <:+ chain ∧
      (skipPast chain c).filter (fun r => touches r p) =
        (chain.filter (fun r => touches r p)).drop k := by
  intro chain
  induction chain with
  | nil => intro _ k c _ h; simp [walkHistory] at h
  | cons r rest ih =>
    intro hn k c hk h
    have hn2 : r.id ∉ rest.map Revision.id ∧ (rest.map Revision.id).Nodup := by
      rw [List.map_cons, List.nodup_cons] at hn
      exact hn
    obtain ⟨hrid, hnr⟩ := hn2
    by_cases ht : touches r p
    · by_cases hk1 : k ≤ 1
      · have hk2 : k = 1 := by omega
        subst hk2
        have hw1 : (walkHistory p (r :: rest) 1).1 = [r] := by simp [walkHistory, ht]
        have hw2 : (walkHistory p (r :: rest) 1).2 = some r.id := by simp [walkHistory, ht]
        rw [hw2] at h
        have hc : r.id = c := by injection h
        subst hc
        have hsk : skipPast (r :: rest) r.id = rest := by simp [skipPast]
        refine ⟨?_, ?_, ?_, ?_, ?_, ?_⟩
        · rw [hw1, filter_cons_touches_pos p r rest ht]; rfl
        · simp
        · rw [hsk]; simp
        · rw [hsk]; exact hnr
        · rw [hsk]; exact List.suffix_cons r rest
        · rw [hsk, filter_cons_touches_pos p r rest ht, List.drop_succ_cons, List.drop_zero]
      · obtain ⟨k1, rfl⟩ : ∃ k1, k = k1 + 1 := ⟨k - 1, by omega⟩
        have hw1 : (walkHistory p (r :: rest) (k1 + 1)).1 =
            r :: (walkHistory p rest k1).1 := by
          simp [walkHistory, ht, hk1]
        have hw2 : (walkHistory p (r :: rest) (k1 + 1)).2 = (walkHistory p rest k1).2 := by
          simp [walkHistory, ht, hk1]
        rw [hw2] at h
        obtain ⟨he, hcmem, hlen, hnd, hsuf, hdrop⟩ := ih hnr k1 c (by omega) h
        have hrc : r.id ≠ c := fun hEq => hrid (hEq ▸ hcmem)
        have hsk : skipPast (r :: rest) c = skipPast rest c := by simp [skipPast, hrc]
        refine ⟨?_, ?_, ?_, ?_, ?_, ?_⟩
        · rw [hw1, he, filter_cons_touches_pos p r rest ht, List.take_succ_cons]
        · simp only [List.map_cons, List.mem_cons]; exact Or.inr hcmem
        · rw [hsk]; simp only [List.length_cons]; omega
        · rw [hsk]; exact hnd
        · rw [hsk]; exact hsuf.trans (List.suffix_cons r rest)
        · rw [hsk, hdrop, filter_cons_touches_pos p r rest ht, List.drop_succ_cons]
    · have hw1 : (walkHistory p (r :: rest) k).1 = (walkHistory p rest k).1 := by
        simp [walkHistory, ht]
      have hw2 : (walkHistory p (r :: rest) k).2 = (walkHistory p rest k).2 := by
        simp [walkHistory, ht]
      rw [hw2] at h
      obtain ⟨he, hcmem, hlen, hnd, hsuf, hdrop⟩ := ih hnr k c hk h
      have hrc : r.id ≠ c := fun hEq => hrid (hEq ▸ hcmem)
      have hsk : skipPast (r :: rest) c = skipPast rest c := by simp [skipPast, hrc]
      refine ⟨?_, ?_, ?_, ?_, ?_, ?_⟩
      · rw [hw1, he, filter_cons_touches_neg p r rest ht]
      · simp only [List.map_cons, List.mem_cons]; exact Or.inr hcmem
      · rw [hsk]; simp only [List.length_cons]; omega
      · rw [hsk]; exact hnd
      · rw [hsk]; exact hsuf.trans (List.suffix_cons r rest)
      · rw [hsk, hdrop, filter_cons_touches_neg p r rest ht]

theorem lastCursor_cons (pr : List LogEntry × Option Nat)
    (rest : List (List LogEntry × Option Nat)) (h : rest ≠ []) :
    lastCursor (pr :: rest) = lastCursor rest := by
  cases rest with
  | nil => exact absurd rfl h
  | cons q t => rfl

theorem pageSeqAux_spec (g : GitBackend) (p : String) (k : Nat) (hk : 1 ≤ k)
    (hn : (g.chain.map Revision.id).Nodup) :
    ∀ (fuel : Nat) (cursor : Option Nat) (s : List Revision),
      history g p cursor k =
        ((walkHistory p s k).1.map toLogEntry, (walkHistory p s k).2) →
      s <:+ g.chain → s.length < fuel →
      pageSeqAux g p k fuel cursor ≠ [] ∧
      concatAll (pageSeqAux g p k fuel cursor) =
        (s.filter (fun r => touches r p)).map toLogEntry ∧
      lastCursor (pageSeqAux g p k fuel cursor) = none := by
  intro fuel
  induction fuel with
  | zero => intro cursor s _ _ hlt; omega
  | succ fuel ih =>
    intro cursor s hhist hsuf hlt
    have hns : (s.map Revision.id).Nodup := hn.sublist ((hsuf.sublist).map Revision.id)
    cases hw2 : (walkHistory p s k).2 with
    | none =>
      have hpage : pageSeqAux g p k (fuel + 1) cursor =
          [((walkHistory p s k).1.map toLogEntry, none)] := by
        simp [pageSeqAux, hhist, hw2]
      rw [hpage]
      refine ⟨by simp, ?_, rfl⟩
      simp only [concatAll, List.append_nil]
      rw [walkHistory_none p s k hk hw2]
    | some c =>
      obtain ⟨he, hcmem, hlen2, hnd2, hsuf2, hdrop⟩ := walkHistory_some p s hns k c hk hw2
      have hskipEq : skipPast g.chain c = skipPast s c :=
        skipPast_eq_of_suffix g.chain s c hn hsuf hcmem
      have hhist2 : history g p (some c) k =
          ((walkHistory p (skipPast s c) k).1.map toLogEntry,
            (walkHistory p (skipPast s c) k).2) := by
        simp [history, hskipEq]
      obtain ⟨hne, hcat, hlast⟩ :=
        ih (some c) (skipPast s c) hhist2 (hsuf2.trans hsuf) (by omega)
      have hpage : pageSeqAux g p k (fuel + 1) cursor =
          ((walkHistory p s k).1.map toLogEntry, some c) ::
            pageSeqAux g p k fuel (some c) := by
        simp [pageSeqAux, hhist, hw2]
      rw [hpage]
      refine ⟨by simp, ?_, ?_⟩
      · simp only [concatAll]
        rw [hcat, he, hdrop, ← List.map_append, List.take_append_drop]
      · rw [lastCursor_cons _ _ hne]; exact hlast

/-! ## Claim theorems -/

/-- Claim C4: pagination of the history walk is complete.  For every page
(chain scoped to a path) and every page size of at least one, on a chain
whose revision identifiers are distinct, concatenating the entry lists of
all pages obtained by starting with the empty cursor and repeatedly
following nextCursor yields exactly the log entries of all revisions
touching the path, in chain (newest-first) order with no duplicates and no
gaps, and the final page's nextCursor is empty. -/
theorem history_pagination_complete (g : GitBackend) (p : String) (k : Nat)
    (hk : 1 ≤ k) (hn : (g.chain.map Revision.id).Nodup) :
    concatAll (pageSeq g p k) =
      (g.chain.filter (fun r => touches r p)).map toLogEntry ∧
    lastCursor (pageSeq g p k) = none ∧
    pageSeq g p k ≠ [] := by
  obtain ⟨h1, h2, h3⟩ :=
    pageSeqAux_spec g p k hk hn (g.chain.length + 1) none g.chain rfl
      (List.suffix_refl _) (Nat.lt_succ_self _)
  exact ⟨h2, h3, h1⟩

/-- Claim C4, witness: on the concrete three-revision chain of `gEx4`, with
page size one, the concatenated pages for the page "home" are exactly its
two log entries, newest first, and the final cursor is empty. -/
theorem history_pagination_complete_witness :
    (1 ≤ 1 ∧ (gEx4.chain.map Revision.id).Nodup) ∧
    (concatAll (pageSeq gEx4 "home" 1) =
        (gEx4.chain.filter (fun r => touches r "home")).map toLogEntry ∧
      lastCursor (pageSeq gEx4 "home" 1) = none ∧
      pageSeq gEx4 "home" 1 ≠ []) :=
  ⟨⟨by decide, by decide⟩,
    history_pagination_complete gEx4 "home" 1 (by decide) (by decide)⟩

/-- Claim C1, counterexample: `GetConfig` returns exactly the raw stored
bytes of the config blob.  On a backend whose stored blob for "users" is the
ciphertext `[1, 2, 3]`, `GetConfig` answers `[1, 2, 3]` itself, refuting the
claim that it returns decrypted plaintext and never the raw stored bytes. -/
theorem getConfig_raw_counterexample :
    lookupFile gEx1.fs (configPath gEx1.dir "users") = some [1, 2, 3] ∧
    GetConfig gEx1 "users" = Except.ok [1, 2, 3] :=
  ⟨rfl, rfl⟩

/-- Claim C1, amended: for every config name, `GetConfig` returns the raw
stored bytes of the file `dir/.wiki/name.json.enc` without any decryption; a
missing file yields the read error, and the only error `GetConfig` can ever
return is the not-found error — in particular never a decryption error. -/
theorem getConfig_returns_raw (g : GitBackend) (name : String) :
    (∀ b, lookupFile g.fs (configPath g.dir name) = some b →
      GetConfig g name = Except.ok b) ∧
    (lookupFile g.fs (configPath g.dir name) = none →
      GetConfig g name = Except.error StoreError.notFound) ∧
    (∀ e, GetConfig g name = Except.error e → e = StoreError.notFound) := by
  refine ⟨?_, ?_, ?_⟩
  · intro b hb
    simp [GetConfig, readFile, hb]
  · intro hb
    simp [GetConfig, readFile, hb]
  · intro e he
    cases hl : lookupFile g.fs (configPath g.dir name) with
    | none => simp [GetConfig, readFile, hl] at he; simp [he]
    | some b => simp [GetConfig, readFile, hl] at he

/-- Claim C1, witness: on a concrete backend with no blob stored under the
name "missing", `GetConfig` returns the not-found read error. -/
theorem getConfig_returns_raw_witness :
    GetConfig gEx1 "missing" = Except.error StoreError.notFound :=
  (getConfig_returns_raw gEx1 "missing").2.1 rfl

/-- Claim C2, counterexample: the trace of `GetConfig` consists of a single
plain file read and contains no acquisition of the shared lock, so its
access does not happen under the shared lock; this refutes the claim that
every read operation holds the shared side of the mutation lock while
gathering its result. -/
theorem getConfig_unlocked_counterexample :
    getConfigTrace gEx2 "users" = [Ev.fsRead "/repo/.wiki/users.json.enc"] ∧
    Ev.rlock ∉ getConfigTrace gEx2 "users" ∧
    sharedHeldThroughout (getConfigTrace gEx2 "users") = false := by
  refine ⟨rfl, by decide, by decide⟩

/-- Claim C2, amended: among the read operations visible in the source,
`GetFile` performs all of its accesses while holding the shared side of the
mutation lock, while `GetConfig` performs its single plain file read without
acquiring the lock at all. -/
theorem readLocking_amended (g : GitBackend) (name : String) :
    sharedHeldThroughout (getFileTrace g name) = true ∧
    getConfigTrace g name = [Ev.fsRead (configPath g.dir name)] ∧
    Ev.rlock ∉ getConfigTrace g name ∧
    Ev.wlock ∉ getConfigTrace g name := by
  refine ⟨rfl, rfl, ?_, ?_⟩ <;> simp [getConfigTrace]

/-- Claim C3: the commit operation is atomic at the revision-chain level.
If staging or committing fails, the returned backend — working copy and
revision chain alike — is exactly the input backend; on success the whole
commit is recorded as exactly one new revision on top of the previous tip,
staging exactly the given paths, and the working copy is untouched. -/
theorem commit_atomic (g : GitBackend) (failing : List String) (commitOk : Bool)
    (paths : List String) (author msg : String) (newId : Nat) :
    (∀ e, (commit g failing commitOk paths author msg newId).2 = Except.error e →
      (commit g failing commitOk paths author msg newId).1 = g) ∧
    (∀ rev, (commit g failing commitOk paths author msg newId).2 = Except.ok rev →
      (commit g failing commitOk paths author msg newId).1 = { g with chain := rev :: g.chain } ∧
      rev.paths = paths ∧ rev.id = newId ∧ rev.tree = g.fs) := by
  cases hst : stageAll failing [] paths with
  | error e0 =>
    refine ⟨fun e h => ?_, fun rev h => ?_⟩
    · simp [commit, hst]
    · simp [commit, hst] at h
  | ok staged =>
    have hstg : staged = paths := by simpa using stageAll_ok_eq failing paths [] staged hst
    cases commitOk with
    | false =>
      refine ⟨fun e h => ?_, fun rev h => ?_⟩
      · simp [commit, hst]
      · simp [commit, hst] at h
    | true =>
      refine ⟨fun e h => ?_, fun rev h => ?_⟩
      · simp [commit, hst] at h
      · simp only [commit, hst] at h ⊢
        simp at h
        refine ⟨?_, ?_⟩
        · simp [← h]
        · rw [← h]; exact ⟨hstg, rfl, rfl⟩

/-- Claim C3, witness: a concrete commit whose staging fails leaves the
backend exactly as it was. -/
theorem commit_atomic_witness :
    (commit gEx3 ["a"] true ["a"] "u" "m" 5).2 =
      Except.error (CommitError.stageFailed "a") ∧
    (commit gEx3 ["a"] true ["a"] "u" "m" 5).1 = gEx3 :=
  ⟨rfl, (commit_atomic gEx3 ["a"] true ["a"] "u" "m" 5).1 (CommitError.stageFailed "a") rfl⟩

/-- Claim C5: for every config name the blob is addressed as exactly one
file, whose path is derived deterministically from the name as
`dir/.wiki/name.json.enc`, and `GetConfig` reads it as a plain file outside
the revision chain: the result is a plain filesystem read, it is independent
of the revision chain, and the trace contains a single plain file read and
no repository access or commit. -/
theorem getConfig_plain_file (g : GitBackend) (name : String) :
    GetConfig g name = readFile g.fs (configPath g.dir name) ∧
    configPath g.dir name = g.dir ++ "/.wiki/" ++ name ++ ".json.enc" ∧
    (∀ chain2, GetConfig { g with chain := chain2 } name = GetConfig g name) ∧
    getConfigTrace g name = [Ev.fsRead (configPath g.dir name)] :=
  ⟨rfl, rfl, fun _ => rfl, rfl⟩

/-- Claim C6: names containing a parent-directory segment are rejected with
a path error, and every successfully resolved physical path lies strictly
inside the repository root directory tree. -/
theorem resolvePath_safe (root name : String) :
    (".." ∈ splitSegs name → resolvePath root name = Except.error StoreError.pathError) ∧
    (∀ p, resolvePath root name = Except.ok p → insideRoot root p) := by
  constructor
  · intro hmem
    unfold resolvePath
    cases hs : splitSegs name with
    | nil => rfl
    | cons s rest =>
      rw [hs] at hmem
      have hbad : allGood (s :: rest) = false :=
        allGood_eq_false_of_mem (s :: rest) ".." hmem rfl
      simp [hbad]
  · intro p hp
    unfold resolvePath at hp
    revert hp
    cases hs : splitSegs name with
    | nil => intro hp; simp at hp
    | cons s rest =>
      intro hp
      change (if allGood (s :: rest) = true then
          Except.ok (root ++ "/" ++ joinSegs (s :: rest))
        else Except.error StoreError.pathError) = Except.ok p at hp
      by_cases hall : allGood (s :: rest) = true
      · rw [if_pos hall] at hp
        injection hp with h
        exact ⟨s :: rest, List.cons_ne_nil s rest, hall, h.symm⟩
      · rw [if_neg hall] at hp
        simp at hp

/-- Claim C6, witness: the name "../secret" contains a parent-directory
segment and is rejected, while the name "docs/home" resolves to a path
strictly inside the root "/repo". -/
theorem resolvePath_safe_witness :
    (".." ∈ splitSegs "../secret") ∧
    resolvePath "/repo" "../secret" = Except.error StoreError.pathError ∧
    insideRoot "/repo" "/repo/docs/home" :=
  ⟨by decide, (resolvePath_safe "/repo" "../secret").1 (by decide),
   (resolvePath_safe "/repo" "docs/home").2 "/repo/docs/home" rfl⟩

/-- Claim C7: evaluation at the failing input.  On the name "../secret" the
path resolver fails with a path error, yet `GetFile` — whose fragment
overwrites the resolver's error without checking it — answers the accessor's
not-found error instead of surfacing the path error, so an error arising
inside the Store is lost.  The session-cookie exception itself does hold:
`putSessionKey` with a failing save returns normally, emitting only a log
line. -/
theorem getFile_swallows_resolve_error :
    resolvePath gEx7.dir "../secret" = Except.error StoreError.pathError ∧
    GetFile gEx7 "../secret" = Except.error StoreError.notFound ∧
    putSessionKey
        (some { values := [], isNew := false, httpOnly := false,
                sameSiteStrict := false, maxAge := 0 })
        "user" "alice" (Except.error "disk full")
      = (some { values := [("user", "alice")], isNew := false, httpOnly := false,
                sameSiteStrict := false, maxAge := 0 },
         ["Unable to save session: disk full"]) :=
  ⟨rfl, rfl, rfl⟩

/-- Claim C8: reading a page without specifying a revision is the same
operation as reading it at the symbolic tip marker: `GetPage` returns
exactly the result of `GetPageAt` at "HEAD", for every backend and title. -/
theorem getPage_eq_getPageAt_head (g : GitBackend) (title : String) :
    GetPage g title = GetPageAt g title "HEAD" := rfl

theorem findRoute_eq_none (l : List (String × Bool)) (target : String) :
    findRoute l target = none ↔ ∀ e ∈ l, hasPrefixStr target e.1 = false := by
  induction l with
  | nil => simp [findRoute]
  | cons e rest ih =>
    constructor
    · intro h
      simp only [findRoute] at h
      by_cases hm : hasPrefixStr target e.1 = true
      · rw [if_pos hm] at h; cases h
      · rw [if_neg hm] at h
        intro x hx
        rcases List.mem_cons.mp hx with rfl | hx2
        · simpa using hm
        · exact ih.mp h x hx2
    · intro hall
      have hm : hasPrefixStr target e.1 = false := hall e (List.mem_cons_self e rest)
      simp only [findRoute]
      rw [if_neg (by simp [hm])]
      exact ih.mpr fun x hx => hall x (List.mem_cons_of_mem e hx)

theorem findRoute_eq_some (l : List (String × Bool)) (target : String) (b : Bool) :
    findRoute l target = some b →
    ∃ pre, (pre, b) ∈ l ∧ hasPrefixStr target pre = true := by
  induction l with
  | nil => intro h; simp [findRoute] at h
  | cons e rest ih =>
    intro h
    simp only [findRoute] at h
    by_cases hm : hasPrefixStr target e.1 = true
    · rw [if_pos hm] at h
      injection h with h2
      refine ⟨e.1, ?_, hm⟩
      rw [← h2]
      exact List.mem_cons_self e rest
    · rw [if_neg hm] at h
      obtain ⟨pre, hmem, hpre⟩ := ih h
      exact ⟨pre, List.mem_cons_of_mem e hmem, hpre⟩

theorem findRoute_eq_some_of_all (l : List (String × Bool)) (target : String) (b : Bool) :
    (∃ e ∈ l, hasPrefixStr target e.1 = true) →
    (∀ e ∈ l, hasPrefixStr target e.1 = true → e.2 = b) →
    findRoute l target = some b := by
  induction l with
  | nil => intro hex _; simp at hex
  | cons e rest ih =>
    intro hex hall
    simp only [findRoute]
    by_cases hm : hasPrefixStr target e.1 = true
    · rw [if_pos hm]
      rw [hall e (List.mem_cons_self e rest) hm]
    · rw [if_neg hm]
      apply ih
      · obtain ⟨x, hx, hpx⟩ := hex
        rcases List.mem_cons.mp hx with rfl | hx2
        · exact absurd hpx hm
        · exact ⟨x, hx2, hpx⟩
      · exact fun x hx hpx => hall x (List.mem_cons_of_mem e hx) hpx

theorem assoc_value_unique :
    ∀ (l : List (String × Bool)), (l.map Prod.fst).Nodup →
      ∀ (pre : String) (b b2 : Bool), (pre, b) ∈ l → (pre, b2) ∈ l → b = b2 := by
  intro l
  induction l with
  | nil => intro _ pre b b2 h; cases h
  | cons e rest ih =>
    intro hn pre b b2 h1 h2
    rw [List.map_cons, List.nodup_cons] at hn
    obtain ⟨hnotin, hnr⟩ := hn
    rcases List.mem_cons.mp h1 with he1 | h1r
    · rcases List.mem_cons.mp h2 with he2 | h2r
      · rw [← he1] at he2
        injection he2 with _ hb
        exact hb.symm
      · exfalso
        apply hnotin
        have hpe : pre = e.1 := by rw [← he1]
        rw [← hpe]
        exact List.mem_map_of_mem Prod.fst h2r
    · rcases List.mem_cons.mp h2 with he2 | h2r
      · exfalso
        apply hnotin
        have hpe : pre = e.1 := by rw [← he2]
        rw [← hpe]
        exact List.mem_map_of_mem Prod.fst h1r
      · exact ih hnr pre b b2 h1r h2r

theorem authRequirements_keys (authForReads authForWrites : Bool) :
    (authRequirements authForReads authForWrites).map Prod.fst =
      ["/edit/", "/file/", "/history/", "/view/", "/wiki/index", "/wiki/files",
       "/wiki/login", "/wiki/logout", "/wiki/upload"] := rfl

theorem authRequirements_keys_nodup (authForReads authForWrites : Bool) :
    ((authRequirements authForReads authForWrites).map Prod.fst).Nodup := by
  rw [authRequirements_keys]; decide

theorem authRequirements_keys_free (authForReads authForWrites : Bool) :
    ∀ p1 ∈ (authRequirements authForReads authForWrites).map Prod.fst,
      ∀ p2 ∈ (authRequirements authForReads authForWrites).map Prod.fst,
        p1.data.isPrefixOf p2.data = true → p1 = p2 := by
  rw [authRequirements_keys]; decide

theorem authRequirements_match_unique (authForReads authForWrites : Bool)
    (target : String) (pre1 : String) (b1 : Bool) (pre2 : String) (b2 : Bool)
    (h1 : (pre1, b1) ∈ authRequirements authForReads authForWrites)
    (h2 : (pre2, b2) ∈ authRequirements authForReads authForWrites)
    (hp1 : hasPrefixStr target pre1 = true)
    (hp2 : hasPrefixStr target pre2 = true) : b1 = b2 := by
  simp only [hasPrefixStr] at hp1 hp2
  have hk1 : pre1 ∈ (authRequirements authForReads authForWrites).map Prod.fst :=
    List.mem_map_of_mem Prod.fst h1
  have hk2 : pre2 ∈ (authRequirements authForReads authForWrites).map Prod.fst :=
    List.mem_map_of_mem Prod.fst h2
  have hpre1 : pre1.data <+: target.data := List.isPrefixOf_iff_prefix.mp hp1
  have hpre2 : pre2.data <+: target.data := List.isPrefixOf_iff_prefix.mp hp2
  have hcomp := List.prefix_or_prefix_of_prefix hpre1 hpre2
  have heq : pre1 = pre2 := by
    rcases hcomp with hc | hc
    · exact authRequirements_keys_free authForReads authForWrites pre1 hk1 pre2 hk2
        (List.isPrefixOf_iff_prefix.mpr hc)
    · exact (authRequirements_keys_free authForReads authForWrites pre2 hk2 pre1 hk1
        (List.isPrefixOf_iff_prefix.mpr hc)).symm
  subst heq
  exact assoc_value_unique (authRequirements authForReads authForWrites)
    (authRequirements_keys_nodup authForReads authForWrites) pre1 b1 b2 h1 h2

/-- Claim C9: for every request, `CheckAuthentication` answers 404 without
invoking the next handler when the URL path matches none of the nine known
route prefixes, answers 401 without invoking the next handler when the
matched prefix requires authentication and the request carries no user, and
otherwise forwards the request; and because no known prefix is a prefix of
another, the outcome is the same for every iteration order of the
requirements map. -/
theorem checkAuthentication_correct (authForReads authForWrites : Bool)
    (order : List (String × Bool)) (target : String) (hasUser : Bool)
    (hperm : order.Perm (authRequirements authForReads authForWrites)) :
    checkAuthentication order target hasUser
      = checkAuthentication (authRequirements authForReads authForWrites) target hasUser ∧
    ((∀ e ∈ authRequirements authForReads authForWrites, hasPrefixStr target e.1 = false) →
      checkAuthentication order target hasUser = AuthOutcome.notFound) ∧
    (∀ pre b, (pre, b) ∈ authRequirements authForReads authForWrites →
      hasPrefixStr target pre = true →
      checkAuthentication order target hasUser
        = if b && !hasUser then AuthOutcome.unauthorized else AuthOutcome.forward) := by
  have hfr : findRoute order target
      = findRoute (authRequirements authForReads authForWrites) target := by
    cases hf : findRoute (authRequirements authForReads authForWrites) target with
    | none =>
      rw [findRoute_eq_none order target]
      intro e he
      exact (findRoute_eq_none _ _).mp hf e (hperm.mem_iff.mp he)
    | some b =>
      obtain ⟨pre0, hmem0, hp0⟩ := findRoute_eq_some _ _ b hf
      apply findRoute_eq_some_of_all
      · exact ⟨(pre0, b), hperm.mem_iff.mpr hmem0, hp0⟩
      · intro e he hpe
        exact authRequirements_match_unique authForReads authForWrites target e.1 e.2 pre0 b
          (hperm.mem_iff.mp he) hmem0 hpe hp0
  refine ⟨?_, ?_, ?_⟩
  · unfold checkAuthentication
    rw [hfr]
  · intro hall
    have hnone : findRoute (authRequirements authForReads authForWrites) target = none :=
      (findRoute_eq_none _ _).mpr hall
    unfold checkAuthentication
    rw [hfr, hnone]
  · intro pre b hmem hp
    have hsome : findRoute (authRequirements authForReads authForWrites) target = some b := by
      apply findRoute_eq_some_of_all
      · exact ⟨(pre, b), hmem, hp⟩
      · intro e he hpe
        exact authRequirements_match_unique authForReads authForWrites target e.1 e.2 pre b
          he hmem hpe hp
    unfold checkAuthentication
    rw [hfr, hsome]

/-- Claim C9, witness: with authentication required for reads, the request
target "/view/home" matches the registered prefix "/view/" and, carrying no
user, is answered 401 — evaluated on the canonical iteration order, which is
a permutation of itself. -/
theorem checkAuthentication_correct_witness :
    List.Perm (authRequirements true true) (authRequirements true true) ∧
    checkAuthentication (authRequirements true true) "/view/home" false
      = AuthOutcome.unauthorized := by
  constructor
  · exact List.Perm.refl _
  · have h := (checkAuthentication_correct true true (authRequirements true true)
      "/view/home" false (List.Perm.refl _)).2.2 "/view/" true (by decide) (by decide)
    simpa using h

/-- Claim C10: for every rune-lowering table — hence in particular for the
Unicode-aware table of `unicode.ToLower` that `strings.ToLower` maps the
string through — a request whose URI differs from its lowercase form is
answered with a permanent redirect (HTTP 308) to the lowercased URI and the
next handler is not invoked; a request whose URI is already fixed by
lowercasing is forwarded to the next handler unchanged. -/
theorem lowerCaseCanonical_correct (low : Char → Char) (uri : String) :
    (goToLower low uri ≠ uri →
      lowerCaseCanonical low uri = WebResult.redirect 308 (goToLower low uri)) ∧
    (goToLower low uri = uri → lowerCaseCanonical low uri = WebResult.forward uri) := by
  constructor <;> intro h <;> simp [lowerCaseCanonical, h]

/-- Claim C10, witness, with a table fragment that agrees with
`unicode.ToLower` on every character exercised: the non-ASCII URI "/É" is
changed by lowercasing and is redirected with status 308 to "/é", the
mixed-case ASCII URI "/View/Home" is redirected with status 308 to
"/view/home", and the all-lowercase URI "/view/home" is forwarded
unchanged. -/
theorem lowerCaseCanonical_correct_witness :
    goToLower lowerCharEx "/É" ≠ "/É" ∧
    lowerCaseCanonical lowerCharEx "/É" = WebResult.redirect 308 "/é" ∧
    lowerCaseCanonical lowerCharEx "/View/Home" = WebResult.redirect 308 "/view/home" ∧
    lowerCaseCanonical lowerCharEx "/view/home" = WebResult.forward "/view/home" := by
  refine ⟨by decide, ?_, ?_, ?_⟩
  · exact ((lowerCaseCanonical_correct lowerCharEx "/É").1 (by decide)).trans (by decide)
  · exact ((lowerCaseCanonical_correct lowerCharEx "/View/Home").1 (by decide)).trans (by decide)
  · exact (lowerCaseCanonical_correct lowerCharEx "/view/home").2 (by decide)

end Wiki
